import Mathlib

/-!
Shallow embedding of the tic-tac-toe game core from `src/main.rs`.

The embedding covers the state-machine core: the `TicTacToe` state
(`next_square_value`, `winner`, `turns`, `turn_index`), the four
messages handled by `TicTacToe::update`, and the pure win detector
`calculate_winner`.  Rust's `[Option<SquareValue>; 9]` board is
embedded as a `List (Option SquareValue)` whose length-9 property is
tracked as an invariant; `usize` indices become `Nat`, and indexing is
totalised with `List.getD` (the Rust code only ever indexes in
bounds on the states it actually reaches).
-/

/-- `SquareValue` from `src/main.rs`: the two players' marks
(the spec calls them First/Second; the source calls them X/O). -/
inductive SquareValue where
  | X : SquareValue
  | O : SquareValue
deriving DecidableEq, Repr

/-- `SquareValue::next`: the other mark, a fixed two-cycle. -/
def SquareValue.next : SquareValue → SquareValue
  | SquareValue.X => SquareValue.O
  | SquareValue.O => SquareValue.X

/-- `type SquareArray = [Option<SquareValue>; 9]`, embedded as a list;
boards produced by the game always have length 9. -/
abbrev SquareArray := List (Option SquareValue)

/-- The all-empty board `[None; 9]`. -/
def emptyBoard : SquareArray := List.replicate 9 none

/-- `Message` from `src/main.rs`: the four intents `update` handles. -/
inductive Message where
  | SquareClicked : Nat → Message
  | PreviousTurn : Message
  | NextTurn : Message
  | StartNewGame : Message
deriving DecidableEq, Repr

/-- The `TicTacToe` application state (the spec's GameState):
`turns` is the history of board snapshots, `turn_index` the cursor. -/
structure TicTacToe where
  next_square_value : SquareValue
  winner : Option SquareValue
  turns : List SquareArray
  turn_index : Nat
deriving DecidableEq, Repr

/-- The eight winning lines of `calculate_winner`, in the source's
enumeration order: rows, columns, diagonals. -/
def winLines : List (Nat × Nat × Nat) :=
  [(0, 1, 2), (3, 4, 5), (6, 7, 8), (0, 3, 6), (1, 4, 7), (2, 5, 8), (0, 4, 8), (2, 4, 6)]

/-- The per-line test of `calculate_winner`:
`squares[a].is_some() && squares[a] == squares[b] && squares[a] == squares[c]`. -/
def lineMatches (squares : SquareArray) (l : Nat × Nat × Nat) : Bool :=
  (squares.getD l.1 none).isSome
    && (squares.getD l.1 none == squares.getD l.2.1 none)
    && (squares.getD l.1 none == squares.getD l.2.2 none)

/-- The `for line in &lines` loop of `calculate_winner`: return the
first line's mark that matches, else `None`. -/
def winnerOfLines (squares : SquareArray) : List (Nat × Nat × Nat) → Option SquareValue
  | [] => none
  | l :: rest =>
    if lineMatches squares l then squares.getD l.1 none
    else winnerOfLines squares rest

/-- `calculate_winner` from `src/main.rs` (the spec's WinDetector). -/
def calculate_winner (squares : SquareArray) : Option SquareValue :=
  winnerOfLines squares winLines

/-- `TicTacToe::update` from `src/main.rs`, restricted to its state
effect (the returned `Command` is always `Command::none()` and is
dropped). -/
def update (s : TicTacToe) (m : Message) : TicTacToe :=
  match m with
  | Message.SquareClicked square_index =>
    let next_squares := s.turns.getD s.turn_index emptyBoard
    let square := next_squares.getD square_index none
    if s.winner.isSome || square.isSome || (calculate_winner next_squares).isSome then
      s
    else
      let next_squares := next_squares.set square_index (some s.next_square_value)
      let turns :=
        if s.turn_index + 1 < s.turns.length then
          (s.turns.set (s.turn_index + 1) next_squares).take (s.turn_index + 2)
        else
          s.turns ++ [next_squares]
      { next_square_value := s.next_square_value.next
        winner := calculate_winner next_squares
        turns := turns
        turn_index := s.turn_index + 1 }
  | Message.PreviousTurn =>
    if s.turn_index = 0 then s
    else
      { s with
        turn_index := s.turn_index - 1
        next_square_value := s.next_square_value.next }
  | Message.NextTurn =>
    if s.turn_index ≥ s.turns.length - 1 then s
    else
      { s with
        turn_index := s.turn_index + 1
        next_square_value := s.next_square_value.next }
  | Message.StartNewGame =>
    { next_square_value := SquareValue.X
      winner := none
      turns := [emptyBoard]
      turn_index := 0 }

/-- `TicTacToe::new`: the fresh state. -/
def initState : TicTacToe :=
  { next_square_value := SquareValue.X
    winner := none
    turns := [emptyBoard]
    turn_index := 0 }

/-- The state reached from the fresh state by a list of messages. -/
def run (msgs : List Message) : TicTacToe :=
  msgs.foldl update initState

/-- A message the presentation layer can actually emit: clicked square
indices are 0..8 (the view enumerates the 9 board cells). -/
def validMsg : Message → Prop
  | Message.SquareClicked i => i < 9
  | _ => True

instance : DecidablePred validMsg := by
  intro m
  cases m <;> simp [validMsg] <;> infer_instance

/-- The spec-side reading of a matching line: all three of its cells
hold `Some m`. -/
def lineFilledWith (squares : SquareArray) (l : Nat × Nat × Nat) (m : SquareValue) : Prop :=
  squares.getD l.1 none = some m ∧ squares.getD l.2.1 none = some m ∧
    squares.getD l.2.2 none = some m

theorem lineMatches_iff_filled (squares : SquareArray) (l : Nat × Nat × Nat) :
    lineMatches squares l = true ↔ ∃ m, lineFilledWith squares l m := by
  simp only [lineMatches, lineFilledWith, Bool.and_eq_true, beq_iff_eq,
    Option.isSome_iff_exists]
  constructor
  · rintro ⟨⟨⟨m, hm⟩, h1⟩, h2⟩
    exact ⟨m, hm, by rw [← h1, hm], by rw [← h2, hm]⟩
  · rintro ⟨m, h1, h2, h3⟩
    exact ⟨⟨⟨m, h1⟩, by rw [h1, h2]⟩, by rw [h1, h3]⟩

theorem winnerOfLines_eq_none_iff (squares : SquareArray) (ls : List (Nat × Nat × Nat)) :
    winnerOfLines squares ls = none ↔ ∀ l ∈ ls, lineMatches squares l = false := by
  induction ls with
  | nil => simp [winnerOfLines]
  | cons l rest ih =>
    by_cases h : lineMatches squares l = true
    · have hsome : (squares.getD l.1 none).isSome = true := by
        simp only [lineMatches, Bool.and_eq_true] at h
        exact h.1.1
      simp only [winnerOfLines, h, if_true]
      constructor
      · intro hnone
        rw [hnone] at hsome
        simp at hsome
      · intro hall
        have := hall l (List.mem_cons_self l rest)
        rw [h] at this
        simp at this
    · have hfalse : lineMatches squares l = false := by
        simpa using h
      simp [winnerOfLines, hfalse, ih]

theorem winnerOfLines_isSome_iff (squares : SquareArray) (ls : List (Nat × Nat × Nat)) :
    (winnerOfLines squares ls).isSome = true ↔ ∃ l ∈ ls, lineMatches squares l = true := by
  rw [Option.isSome_iff_ne_none]
  rw [Ne, winnerOfLines_eq_none_iff]
  push_neg
  constructor
  · rintro ⟨l, hl, hne⟩
    exact ⟨l, hl, by simpa using hne⟩
  · rintro ⟨l, hl, hm⟩
    exact ⟨l, hl, by simp [hm]⟩

theorem winnerOfLines_first_match (squares : SquareArray) (pre : List (Nat × Nat × Nat))
    (l : Nat × Nat × Nat) (post : List (Nat × Nat × Nat))
    (hpre : ∀ l' ∈ pre, lineMatches squares l' = false)
    (hl : lineMatches squares l = true) :
    winnerOfLines squares (pre ++ l :: post) = squares.getD l.1 none := by
  induction pre with
  | nil => simp [winnerOfLines, hl]
  | cons p ps ih =>
    have hp := hpre p (List.mem_cons_self p ps)
    simp only [List.cons_append, winnerOfLines, hp]
    simp only [Bool.false_eq_true, if_false]
    exact ih fun l' h' => hpre l' (List.mem_cons_of_mem p h')

/-- Claim C2: `calculate_winner` returns `Some` iff one of the 8 fixed lines
has all three cells equal to `Some m`, returns `None` otherwise, and
when lines match it returns the mark of the first matching line in the
fixed enumeration order. -/
theorem calculate_winner_correct (b : SquareArray) (_hb : b.length = 9) :
    ((calculate_winner b).isSome = true ↔ ∃ m, ∃ l ∈ winLines, lineFilledWith b l m) ∧
    (calculate_winner b = none ↔ ¬ ∃ m, ∃ l ∈ winLines, lineFilledWith b l m) ∧
    ∀ pre l post, winLines = pre ++ l :: post →
      (∀ l' ∈ pre, ¬ ∃ m, lineFilledWith b l' m) →
      ∀ m, lineFilledWith b l m → calculate_winner b = some m := by
  refine ⟨?_, ?_, ?_⟩
  · rw [calculate_winner, winnerOfLines_isSome_iff]
    constructor
    · rintro ⟨l, hl, hm⟩
      obtain ⟨m, hf⟩ := (lineMatches_iff_filled b l).1 hm
      exact ⟨m, l, hl, hf⟩
    · rintro ⟨m, l, hl, hf⟩
      exact ⟨l, hl, (lineMatches_iff_filled b l).2 ⟨m, hf⟩⟩
  · rw [calculate_winner, winnerOfLines_eq_none_iff]
    constructor
    · rintro hall ⟨m, l, hl, hf⟩
      have h1 := hall l hl
      have h2 := (lineMatches_iff_filled b l).2 ⟨m, hf⟩
      rw [h1] at h2
      exact absurd h2 (by simp)
    · intro hne l hl
      cases hc : lineMatches b l with
      | false => rfl
      | true =>
        obtain ⟨m, hf⟩ := (lineMatches_iff_filled b l).1 hc
        exact absurd ⟨m, l, hl, hf⟩ hne
  · intro pre l post heq hpre m hf
    have hl : lineMatches b l = true := (lineMatches_iff_filled b l).2 ⟨m, hf⟩
    have hpre' : ∀ l' ∈ pre, lineMatches b l' = false := by
      intro l' h'
      cases hc : lineMatches b l' with
      | false => rfl
      | true => exact absurd ((lineMatches_iff_filled b l').1 hc) (hpre l' h')
    rw [calculate_winner, heq, winnerOfLines_first_match b pre l post hpre' hl]
    exact hf.1

/-- Witness for C2 at a concrete board whose top row is all X. -/
theorem calculate_winner_correct_witness :
    calculate_winner
      [some SquareValue.X, some SquareValue.X, some SquareValue.X,
        some SquareValue.O, some SquareValue.O, none, none, none, none] =
      some SquareValue.X :=
  (calculate_winner_correct
      [some SquareValue.X, some SquareValue.X, some SquareValue.X,
        some SquareValue.O, some SquareValue.O, none, none, none, none] rfl).2.2
    [] (0, 1, 2)
    [(3, 4, 5), (6, 7, 8), (0, 3, 6), (1, 4, 7), (2, 5, 8), (0, 4, 8), (2, 4, 6)]
    rfl (by simp) SquareValue.X ⟨rfl, rfl, rfl⟩

theorem getD_take_of_lt {α : Type} (l : List α) (n j : Nat) (d : α) (h : j < n) :
    (l.take n).getD j d = l.getD j d := by
  rw [List.getD_eq_getElem?_getD, List.getD_eq_getElem?_getD, List.getElem?_take]
  simp [h]

theorem getD_set_of_ne {α : Type} (l : List α) (n j : Nat) (a d : α) (h : n ≠ j) :
    (l.set n a).getD j d = l.getD j d := by
  rw [List.getD_eq_getElem?_getD, List.getD_eq_getElem?_getD, List.getElem?_set_ne h]

theorem getD_set_self_of_lt {α : Type} (l : List α) (n : Nat) (a d : α) (h : n < l.length) :
    (l.set n a).getD n d = a := by
  rw [List.getD_eq_getElem?_getD, List.getElem?_set_self h]
  rfl

theorem getD_append_of_lt {α : Type} (l1 l2 : List α) (j : Nat) (d : α) (h : j < l1.length) :
    (l1 ++ l2).getD j d = l1.getD j d := by
  rw [List.getD_eq_getElem?_getD, List.getD_eq_getElem?_getD, List.getElem?_append_left h]

theorem getD_append_singleton_self {α : Type} (l : List α) (a d : α) :
    (l ++ [a]).getD l.length d = a := by
  rw [List.getD_eq_getElem?_getD]
  simp

/-- Number of occupied cells of a board. -/
def occupiedCount (b : SquareArray) : Nat := b.countP fun o => o.isSome

theorem occupiedCount_le_length (b : SquareArray) : occupiedCount b ≤ b.length :=
  List.countP_le_length _

theorem occupiedCount_set_some (l : SquareArray) (i : Nat) (v : SquareValue)
    (hi : i < l.length) (hnone : l.getD i none = none) :
    occupiedCount (l.set i (some v)) = occupiedCount l + 1 := by
  induction l generalizing i with
  | nil => simp at hi
  | cons x xs ih =>
    cases i with
    | zero =>
      have hx : x = none := by simpa [List.getD_eq_getElem?_getD] using hnone
      subst hx
      simp [occupiedCount, List.countP_cons]
    | succ n =>
      have hx : xs.getD n none = none := by
        simpa [List.getD_eq_getElem?_getD] using hnone
      have hn : n < xs.length := by simpa using hi
      have hxs := ih n hn hx
      simp only [List.set_cons_succ, occupiedCount, List.countP_cons] at hxs ⊢
      omega

theorem parity_next (v : SquareValue) (n : Nat)
    (h : v = SquareValue.X ↔ n % 2 = 0) :
    v.next = SquareValue.X ↔ (n + 1) % 2 = 0 := by
  cases v <;> simp [SquareValue.next] at h ⊢ <;> omega

theorem parity_prev (v : SquareValue) (n : Nat) (hn : n ≠ 0)
    (h : v = SquareValue.X ↔ n % 2 = 0) :
    v.next = SquareValue.X ↔ (n - 1) % 2 = 0 := by
  cases v <;> simp [SquareValue.next] at h ⊢ <;> omega

/-- The reduced form of `update` on `SquareClicked` when any of the
three guard conditions holds: the click is ignored. -/
theorem update_click_noop (s : TicTacToe) (i : Nat)
    (h : s.winner.isSome = true ∨
      ((s.turns.getD s.turn_index emptyBoard).getD i none).isSome = true ∨
      (calculate_winner (s.turns.getD s.turn_index emptyBoard)).isSome = true) :
    update s (Message.SquareClicked i) = s := by
  simp only [List.getD_eq_getElem?_getD] at h
  rcases h with h | h | h <;> simp [update, h]

/-- The reduced form of `update` on `SquareClicked` when all three
guard conditions fail (the success path of the source). -/
theorem update_click_success (s : TicTacToe) (i : Nat)
    (hw : s.winner = none)
    (hcell : (s.turns.getD s.turn_index emptyBoard).getD i none = none)
    (hcalc : calculate_winner (s.turns.getD s.turn_index emptyBoard) = none) :
    update s (Message.SquareClicked i) =
      { next_square_value := s.next_square_value.next
        winner := calculate_winner
          ((s.turns.getD s.turn_index emptyBoard).set i (some s.next_square_value))
        turns :=
          if s.turn_index + 1 < s.turns.length then
            (s.turns.set (s.turn_index + 1)
              ((s.turns.getD s.turn_index emptyBoard).set i (some s.next_square_value))).take
              (s.turn_index + 2)
          else
            s.turns ++ [(s.turns.getD s.turn_index emptyBoard).set i (some s.next_square_value)]
        turn_index := s.turn_index + 1 } := by
  simp only [update]
  rw [hw, hcell, hcalc]
  simp

/-- Claim C3: clicking an occupied cell, or clicking while a winner is
recorded, leaves the whole state unchanged. -/
theorem place_mark_noop_of_occupied_or_winner (s : TicTacToe) (i : Nat)
    (h : s.winner.isSome = true ∨
      ((s.turns.getD s.turn_index emptyBoard).getD i none).isSome = true) :
    update s (Message.SquareClicked i) = s := by
  simp only [List.getD_eq_getElem?_getD] at h
  rcases h with h | h <;> simp [update, h]

/-- Witness for C3: after one move, re-clicking square 0 is a no-op. -/
theorem place_mark_noop_witness :
    update (run [Message.SquareClicked 0]) (Message.SquareClicked 0) =
      run [Message.SquareClicked 0] :=
  place_mark_noop_of_occupied_or_winner (run [Message.SquareClicked 0]) 0
    (Or.inr (by decide))

/-- Claim C4: a successful placement overwrites `turns[turn_index+1]` and
truncates to length `turn_index+2` when future history exists,
otherwise appends; either way the cursor advances by exactly 1. -/
theorem place_mark_success_history (s : TicTacToe) (i : Nat)
    (_hcur : s.turn_index < s.turns.length)
    (hw : s.winner = none)
    (hcell : (s.turns.getD s.turn_index emptyBoard).getD i none = none)
    (hcalc : calculate_winner (s.turns.getD s.turn_index emptyBoard) = none) :
    (s.turn_index + 1 < s.turns.length →
        (update s (Message.SquareClicked i)).turns =
          (s.turns.set (s.turn_index + 1)
            ((s.turns.getD s.turn_index emptyBoard).set i (some s.next_square_value))).take
            (s.turn_index + 2) ∧
        (update s (Message.SquareClicked i)).turns.length = s.turn_index + 2) ∧
    (¬ s.turn_index + 1 < s.turns.length →
        (update s (Message.SquareClicked i)).turns =
          s.turns ++ [(s.turns.getD s.turn_index emptyBoard).set i (some s.next_square_value)]) ∧
    (update s (Message.SquareClicked i)).turn_index = s.turn_index + 1 := by
  have he := update_click_success s i hw hcell hcalc
  refine ⟨fun hlt => ⟨?_, ?_⟩, fun hge => ?_, ?_⟩
  · rw [he]
    simp [hlt]
  · rw [he]
    simp only [if_pos hlt]
    simp [List.length_take, List.length_set]
    omega
  · rw [he]
    simp [hge]
  · rw [he]

/-- Witness for C4: the first move from the fresh state appends and
advances the cursor to 1. -/
theorem place_mark_success_history_witness :
    (update initState (Message.SquareClicked 0)).turn_index = 0 + 1 :=
  (place_mark_success_history initState 0 (by decide) rfl rfl rfl).2.2

/-- Claim C6: `PreviousTurn` at cursor 0 and `NextTurn` at the end of history
are no-ops; otherwise they move the cursor by exactly 1 and never
modify history. -/
theorem navigation_bounds (s : TicTacToe) :
    (s.turn_index = 0 → update s Message.PreviousTurn = s) ∧
    (s.turn_index ≥ s.turns.length - 1 → update s Message.NextTurn = s) ∧
    (s.turn_index ≠ 0 →
      (update s Message.PreviousTurn).turn_index = s.turn_index - 1 ∧
        (update s Message.PreviousTurn).turns = s.turns) ∧
    (s.turn_index < s.turns.length - 1 →
      (update s Message.NextTurn).turn_index = s.turn_index + 1 ∧
        (update s Message.NextTurn).turns = s.turns) := by
  refine ⟨fun h => ?_, fun h => ?_, fun h => ?_, fun h => ?_⟩
  · simp [update, h]
  · simp [update, h]
  · simp [update, h]
  · have h2 : ¬ s.turn_index ≥ s.turns.length - 1 := Nat.not_le.2 h
    constructor <;> simp [update, h2]

/-- Witness for C6 at concrete states on both sides of each bound. -/
theorem navigation_bounds_witness :
    update initState Message.PreviousTurn = initState ∧
    update initState Message.NextTurn = initState ∧
    (update (run [Message.SquareClicked 0]) Message.PreviousTurn).turn_index = 1 - 1 ∧
    (update (run [Message.SquareClicked 0, Message.PreviousTurn]) Message.NextTurn).turn_index =
      0 + 1 :=
  ⟨(navigation_bounds initState).1 rfl,
    (navigation_bounds initState).2.1 (by decide),
    ((navigation_bounds (run [Message.SquareClicked 0])).2.2.1 (by decide)).1,
    ((navigation_bounds (run [Message.SquareClicked 0, Message.PreviousTurn])).2.2.2
      (by decide)).1⟩

/-- Claim C7: `StartNewGame` from any state yields exactly the fresh state:
history `[empty board]`, cursor 0, next mark X, winner `None`. -/
theorem reset_fresh (s : TicTacToe) :
    update s Message.StartNewGame = initState ∧
    initState.turns = [emptyBoard] ∧ initState.turn_index = 0 ∧
    initState.next_square_value = SquareValue.X ∧ initState.winner = none :=
  ⟨rfl, rfl, rfl, rfl, rfl⟩

/-- Structural invariants of every state reachable from the fresh
state: non-empty history starting at the empty board, cursor in
bounds, mark parity, and 9-cell boards. -/
structure StateInv (s : TicTacToe) : Prop where
  nonempty : s.turns ≠ []
  cursor_lt : s.turn_index < s.turns.length
  head_empty : s.turns.getD 0 [] = emptyBoard
  parity : s.next_square_value = SquareValue.X ↔ s.turn_index % 2 = 0
  board_len : ∀ j, j < s.turns.length → (s.turns.getD j emptyBoard).length = 9

theorem stateInv_init : StateInv initState := by
  refine ⟨by simp [initState], by simp [initState], rfl, by simp [initState], ?_⟩
  intro j hj
  simp [initState] at hj
  subst hj
  rfl

theorem stateInv_update (s : TicTacToe) (m : Message) (h : StateInv s) : StateInv (update s m) := by
  cases m with
  | StartNewGame => exact stateInv_init
  | PreviousTurn =>
    by_cases h0 : s.turn_index = 0
    · simp only [update, if_pos h0]
      exact h
    · simp only [update, if_neg h0]
      exact ⟨h.nonempty, by have := h.cursor_lt; dsimp only; omega, h.head_empty,
        parity_prev _ _ h0 h.parity, h.board_len⟩
  | NextTurn =>
    by_cases hge : s.turn_index ≥ s.turns.length - 1
    · simp only [update, if_pos hge]
      exact h
    · simp only [update, if_neg hge]
      refine ⟨h.nonempty, ?_, h.head_empty, parity_next _ _ h.parity, h.board_len⟩
      have := h.cursor_lt
      dsimp only
      omega
  | SquareClicked i =>
    by_cases hw : s.winner = none
    · by_cases hcell : (s.turns.getD s.turn_index emptyBoard).getD i none = none
      · by_cases hcalc : calculate_winner (s.turns.getD s.turn_index emptyBoard) = none
        · rw [update_click_success s i hw hcell hcalc]
          have hb9 : (s.turns.getD s.turn_index emptyBoard).length = 9 :=
            h.board_len _ h.cursor_lt
          by_cases hlt : s.turn_index + 1 < s.turns.length
          · rw [if_pos hlt]
            have hlen :
                ((s.turns.set (s.turn_index + 1)
                  ((s.turns.getD s.turn_index emptyBoard).set i
                    (some s.next_square_value))).take (s.turn_index + 2)).length =
                  s.turn_index + 2 := by
              simp [List.length_take, List.length_set]
              omega
            refine ⟨?_, ?_, ?_, parity_next _ _ h.parity, ?_⟩
            · dsimp only
              refine List.length_pos.mp ?_
              rw [hlen]
              omega
            · dsimp only
              rw [hlen]
              omega
            · dsimp only
              rw [getD_take_of_lt _ _ 0 _ (by omega),
                getD_set_of_ne _ _ 0 _ _ (by omega)]
              exact h.head_empty
            · intro j hj
              rw [hlen] at hj
              by_cases hji : j = s.turn_index + 1
              · subst hji
                rw [getD_take_of_lt _ _ _ _ (by omega),
                  getD_set_self_of_lt _ _ _ _ hlt, List.length_set]
                exact hb9
              · rw [getD_take_of_lt _ _ _ _ hj,
                  getD_set_of_ne _ _ _ _ _ (fun hc => hji hc.symm)]
                exact h.board_len j (by have := h.cursor_lt; omega)
          · rw [if_neg hlt]
            have hti : s.turn_index + 1 = s.turns.length := by
              have := h.cursor_lt
              omega
            refine ⟨by simp, ?_, ?_, parity_next _ _ h.parity, ?_⟩
            · simp
              omega
            · rw [getD_append_of_lt _ _ 0 _ (by have := h.cursor_lt; omega)]
              exact h.head_empty
            · intro j hj
              simp only [List.length_append, List.length_singleton] at hj
              by_cases hjl : j < s.turns.length
              · rw [getD_append_of_lt _ _ _ _ hjl]
                exact h.board_len j hjl
              · have hj' : j = s.turns.length := by omega
                subst hj'
                rw [getD_append_singleton_self]
                rw [List.length_set]
                exact hb9
        · rw [update_click_noop s i
            (Or.inr (Or.inr (Option.ne_none_iff_isSome.mp hcalc)))]
          exact h
      · rw [update_click_noop s i
          (Or.inr (Or.inl (Option.ne_none_iff_isSome.mp hcell)))]
        exact h
    · rw [update_click_noop s i (Or.inl (Option.ne_none_iff_isSome.mp hw))]
      exact h

theorem stateInv_foldl (msgs : List Message) (s : TicTacToe) (h : StateInv s) :
    StateInv (msgs.foldl update s) := by
  induction msgs generalizing s with
  | nil => exact h
  | cons m rest ih => exact ih (update s m) (stateInv_update s m h)

theorem stateInv_run (msgs : List Message) : StateInv (run msgs) :=
  stateInv_foldl msgs initState stateInv_init

/-- Every board in history has exactly as many occupied cells as its
index (one move is applied per history step). -/
def CountInv (s : TicTacToe) : Prop :=
  ∀ j, j < s.turns.length → occupiedCount (s.turns.getD j emptyBoard) = j

theorem countInv_init : CountInv initState := by
  intro j hj
  simp [initState] at hj
  subst hj
  decide

theorem countInv_update (s : TicTacToe) (m : Message) (h : StateInv s) (hc : CountInv s)
    (hv : validMsg m) : CountInv (update s m) := by
  cases m with
  | StartNewGame => exact countInv_init
  | PreviousTurn =>
    by_cases h0 : s.turn_index = 0
    · simp only [update, if_pos h0]
      exact hc
    · simp only [update, if_neg h0]
      exact hc
  | NextTurn =>
    by_cases hge : s.turn_index ≥ s.turns.length - 1
    · simp only [update, if_pos hge]
      exact hc
    · simp only [update, if_neg hge]
      exact hc
  | SquareClicked i =>
    have hi : i < 9 := hv
    by_cases hw : s.winner = none
    · by_cases hcell : (s.turns.getD s.turn_index emptyBoard).getD i none = none
      · by_cases hcalc : calculate_winner (s.turns.getD s.turn_index emptyBoard) = none
        · rw [update_click_success s i hw hcell hcalc]
          have hb9 : (s.turns.getD s.turn_index emptyBoard).length = 9 :=
            h.board_len _ h.cursor_lt
          have hnew :
              occupiedCount
                ((s.turns.getD s.turn_index emptyBoard).set i (some s.next_square_value)) =
                s.turn_index + 1 := by
            rw [occupiedCount_set_some _ i _ (by omega) hcell, hc _ h.cursor_lt]
          intro j hj
          by_cases hlt : s.turn_index + 1 < s.turns.length
          · rw [if_pos hlt] at hj ⊢
            dsimp only at hj ⊢
            have hlen :
                ((s.turns.set (s.turn_index + 1)
                  ((s.turns.getD s.turn_index emptyBoard).set i
                    (some s.next_square_value))).take (s.turn_index + 2)).length =
                  s.turn_index + 2 := by
              simp [List.length_take, List.length_set]
              omega
            rw [hlen] at hj
            by_cases hji : j = s.turn_index + 1
            · subst hji
              rw [getD_take_of_lt _ _ _ _ (by omega),
                getD_set_self_of_lt _ _ _ _ hlt]
              exact hnew
            · rw [getD_take_of_lt _ _ _ _ hj,
                getD_set_of_ne _ _ _ _ _ (fun hx => hji hx.symm)]
              exact hc j (by have := h.cursor_lt; omega)
          · rw [if_neg hlt] at hj ⊢
            dsimp only at hj ⊢
            simp only [List.length_append, List.length_singleton] at hj
            by_cases hjl : j < s.turns.length
            · rw [getD_append_of_lt _ _ _ _ hjl]
              exact hc j hjl
            · have hj' : j = s.turns.length := by omega
              subst hj'
              rw [getD_append_singleton_self]
              have hti : s.turns.length = s.turn_index + 1 := by
                have := h.cursor_lt
                omega
              rw [hti]
              exact hnew
        · rw [update_click_noop s i
            (Or.inr (Or.inr (Option.ne_none_iff_isSome.mp hcalc)))]
          exact hc
      · rw [update_click_noop s i
          (Or.inr (Or.inl (Option.ne_none_iff_isSome.mp hcell)))]
        exact hc
    · rw [update_click_noop s i (Or.inl (Option.ne_none_iff_isSome.mp hw))]
      exact hc

theorem countInv_foldl (msgs : List Message) (s : TicTacToe) (h : StateInv s)
    (hc : CountInv s) (hv : ∀ m ∈ msgs, validMsg m) :
    CountInv (msgs.foldl update s) := by
  induction msgs generalizing s with
  | nil => exact hc
  | cons m rest ih =>
    exact ih (update s m) (stateInv_update s m h)
      (countInv_update s m h hc (hv m (List.mem_cons_self m rest)))
      (fun m' hm' => hv m' (List.mem_cons_of_mem m hm'))

theorem countInv_run (msgs : List Message) (hv : ∀ m ∈ msgs, validMsg m) :
    CountInv (run msgs) :=
  countInv_foldl msgs initState stateInv_init countInv_init hv

/-- Under both invariants the history can never exceed 10 boards. -/
theorem turns_length_le_ten (s : TicTacToe) (h : StateInv s) (hc : CountInv s) :
    s.turns.length ≤ 10 := by
  have h1 : s.turns.length - 1 < s.turns.length := by
    have := h.cursor_lt
    omega
  have h2 := hc _ h1
  have h3 := occupiedCount_le_length (s.turns.getD (s.turns.length - 1) emptyBoard)
  rw [h2, h.board_len _ h1] at h3
  omega

/-- After any `SquareClicked` on a well-formed state, either nothing
changed or the cursor sits at the tip of history. -/
theorem click_tip (s : TicTacToe) (i : Nat) (h : StateInv s) :
    update s (Message.SquareClicked i) = s ∨
      (update s (Message.SquareClicked i)).turn_index =
        (update s (Message.SquareClicked i)).turns.length - 1 := by
  by_cases hw : s.winner = none
  · by_cases hcell : (s.turns.getD s.turn_index emptyBoard).getD i none = none
    · by_cases hcalc : calculate_winner (s.turns.getD s.turn_index emptyBoard) = none
      · right
        rw [update_click_success s i hw hcell hcalc]
        by_cases hlt : s.turn_index + 1 < s.turns.length
        · rw [if_pos hlt]
          dsimp only
          simp [List.length_take, List.length_set]
          omega
        · rw [if_neg hlt]
          dsimp only
          simp [List.length_append]
          have := h.cursor_lt
          omega
      · exact Or.inl (update_click_noop s i
          (Or.inr (Or.inr (Option.ne_none_iff_isSome.mp hcalc))))
    · exact Or.inl (update_click_noop s i
        (Or.inr (Or.inl (Option.ne_none_iff_isSome.mp hcell))))
  · exact Or.inl (update_click_noop s i (Or.inl (Option.ne_none_iff_isSome.mp hw)))

/-- Claim C5: in every reachable state the next mark is X exactly when the
cursor is even; in particular it is X at the fresh state and right
after a reset. -/
theorem next_mark_parity (msgs : List Message) :
    ((run msgs).next_square_value = SquareValue.X ↔ (run msgs).turn_index % 2 = 0) ∧
    initState.next_square_value = SquareValue.X ∧ initState.turn_index = 0 ∧
    (update (run msgs) Message.StartNewGame).next_square_value = SquareValue.X :=
  ⟨(stateInv_run msgs).parity, rfl, rfl, rfl⟩

/-- Claim C9: in every reachable state the history is non-empty, starts at
the all-empty board, and the cursor is strictly within bounds. -/
theorem history_bounds_invariant (msgs : List Message) :
    (run msgs).turns ≠ [] ∧
    (run msgs).turns.getD 0 [] = emptyBoard ∧
    (run msgs).turn_index < (run msgs).turns.length :=
  ⟨(stateInv_run msgs).nonempty, (stateInv_run msgs).head_empty,
    (stateInv_run msgs).cursor_lt⟩

/-- Claim C10: after any click on a reachable state the cursor is at the tip
of history (unless nothing changed); each board in history holds
exactly as many marks as its index; and history never exceeds 10
boards. -/
theorem timeline_tip_counts_and_bound (msgs : List Message)
    (hv : ∀ m ∈ msgs, validMsg m) :
    (∀ i, update (run msgs) (Message.SquareClicked i) = run msgs ∨
        (update (run msgs) (Message.SquareClicked i)).turn_index =
          (update (run msgs) (Message.SquareClicked i)).turns.length - 1) ∧
    (∀ j, j < (run msgs).turns.length →
        occupiedCount ((run msgs).turns.getD j emptyBoard) = j) ∧
    (run msgs).turns.length ≤ 10 :=
  ⟨fun i => click_tip (run msgs) i (stateInv_run msgs),
    countInv_run msgs hv,
    turns_length_le_ten (run msgs) (stateInv_run msgs) (countInv_run msgs hv)⟩

/-- Witness for C10 after a single concrete move. -/
theorem timeline_tip_counts_and_bound_witness :
    (run [Message.SquareClicked 0]).turns.length ≤ 10 :=
  (timeline_tip_counts_and_bound [Message.SquareClicked 0]
    (by intro m hm; simp at hm; subst hm; exact (by decide : (0 : Nat) < 9))).2.2

/-- The concrete game of §8 of the spec: X takes the top row. -/
def winningGame : List Message :=
  [Message.SquareClicked 0, Message.SquareClicked 3, Message.SquareClicked 1,
    Message.SquareClicked 4, Message.SquareClicked 2]

/-- Claim C8: the moves 0, 3, 1, 4, 2 from the fresh state all succeed,
producing the top-row-X board with winner X after the fifth placement,
and any sixth click on an empty cell is a no-op. -/
theorem end_to_end_first_wins :
    (run winningGame).turns.length = 6 ∧
    (run winningGame).turn_index = 5 ∧
    (run winningGame).winner = some SquareValue.X ∧
    (run winningGame).turns.getD 5 emptyBoard =
      [some SquareValue.X, some SquareValue.X, some SquareValue.X,
        some SquareValue.O, some SquareValue.O, none, none, none, none] ∧
    ∀ i, i < 9 → ((run winningGame).turns.getD 5 emptyBoard).getD i none = none →
      update (run winningGame) (Message.SquareClicked i) = run winningGame := by
  refine ⟨by decide, by decide, by decide, by decide, ?_⟩
  intro i _hi _hempty
  exact update_click_noop (run winningGame) i (Or.inl (by decide))

/-- Witness for C8: the sixth click at empty square 5 is a no-op. -/
theorem end_to_end_first_wins_witness :
    update (run winningGame) (Message.SquareClicked 5) = run winningGame :=
  end_to_end_first_wins.2.2.2.2 5 (by decide) (by decide)

/-- Claim C1 counterexample: after winning the §8 game and stepping backward
once, the cached winner is still `Some X` while the win detector
reports no winner for the board at the cursor. -/
theorem winner_cache_counterexample :
    (run (winningGame ++ [Message.PreviousTurn])).winner = some SquareValue.X ∧
    calculate_winner
      ((run (winningGame ++ [Message.PreviousTurn])).turns.getD
        (run (winningGame ++ [Message.PreviousTurn])).turn_index emptyBoard) = none ∧
    (run (winningGame ++ [Message.PreviousTurn])).winner ≠
      calculate_winner
        ((run (winningGame ++ [Message.PreviousTurn])).turns.getD
          (run (winningGame ++ [Message.PreviousTurn])).turn_index emptyBoard) :=
  ⟨by decide, by decide, by decide⟩

/-- Claim C1 amended: the winner cache equals the win detector on the
cursor's board after every successful placement and after reset, while
backward/forward navigation changes neither the cache nor the history
(so after navigation the cache may disagree with the cursor's board). -/
theorem winner_cache_amended (s : TicTacToe) (i : Nat)
    (hcur : s.turn_index < s.turns.length) :
    (update s (Message.SquareClicked i) = s ∨
      (update s (Message.SquareClicked i)).winner =
        calculate_winner
          ((update s (Message.SquareClicked i)).turns.getD
            (update s (Message.SquareClicked i)).turn_index emptyBoard)) ∧
    (update s Message.PreviousTurn).winner = s.winner ∧
    (update s Message.PreviousTurn).turns = s.turns ∧
    (update s Message.NextTurn).winner = s.winner ∧
    (update s Message.NextTurn).turns = s.turns ∧
    (update s Message.StartNewGame).winner =
      calculate_winner
        ((update s Message.StartNewGame).turns.getD
          (update s Message.StartNewGame).turn_index emptyBoard) := by
  refine ⟨?_, ?_, ?_, ?_, ?_, rfl⟩
  · by_cases hw : s.winner = none
    · by_cases hcell : (s.turns.getD s.turn_index emptyBoard).getD i none = none
      · by_cases hcalc : calculate_winner (s.turns.getD s.turn_index emptyBoard) = none
        · right
          rw [update_click_success s i hw hcell hcalc]
          by_cases hlt : s.turn_index + 1 < s.turns.length
          · rw [if_pos hlt]
            dsimp only
            rw [getD_take_of_lt _ _ _ _ (by omega), getD_set_self_of_lt _ _ _ _ hlt]
          · rw [if_neg hlt]
            dsimp only
            have hti : s.turn_index + 1 = s.turns.length := by omega
            rw [hti, getD_append_singleton_self]
        · exact Or.inl (update_click_noop s i
            (Or.inr (Or.inr (Option.ne_none_iff_isSome.mp hcalc))))
      · exact Or.inl (update_click_noop s i
          (Or.inr (Or.inl (Option.ne_none_iff_isSome.mp hcell))))
    · exact Or.inl (update_click_noop s i (Or.inl (Option.ne_none_iff_isSome.mp hw)))
  · by_cases h0 : s.turn_index = 0 <;> simp [update, h0]
  · by_cases h0 : s.turn_index = 0 <;> simp [update, h0]
  · by_cases hge : s.turn_index ≥ s.turns.length - 1 <;> simp [update, hge]
  · by_cases hge : s.turn_index ≥ s.turns.length - 1 <;> simp [update, hge]

/-- Witness for the amended C1 at the fresh state. -/
theorem winner_cache_amended_witness :
    (update initState Message.PreviousTurn).winner = initState.winner :=
  (winner_cache_amended initState 0 (by decide)).2.1

